import Mathlib

/-!
# fmngr: the file/storage consistency layer

A shallow embedding of the handlers of `main.go` (`storageCreate`, `fileCreate`,
`fileList`, `fileSingle`, `fileDelete`) over an explicit state: the two catalog
tables and a filesystem.

Conventions of the embedding.

* A Go `string` is a `List Char`; the library functions used by the handlers only
  inspect the ASCII characters `/` and `.`, so working on characters or on bytes
  gives the same splits.
* Go `int` / `int64` values (ids, sizes) are `Int`; no arithmetic on them can overflow
  here (ids come from the catalog, sizes are lengths of stored blobs).
* A handler takes the state and its decoded request and returns the HTTP response
  together with the new state.  A run-time panic is caught by `middleware.Recoverer`,
  which answers 500; the state keeps whatever had been done before the panic.
* Every `err != nil` branch of the source only logs; the embedding keeps the value the
  source continues with (the zero value of the scanned variable).
* The catalog never fails for infrastructure reasons (connection loss is not modelled);
  the filesystem fails exactly where the path does not resolve.
* The filesystem has no symbolic or hard links: a file is identified by the absolute
  path its name resolves to against the working directory of the process, so a relative
  and an absolute path to one file read and write the same content.
-/

namespace Fmngr

/-! ## Data model (`main.go`, lines 34-46) -/

/-- One byte of a blob. -/
abbrev Byte := Fin 256

/-- Row of table `storage` (`type storage struct`). -/
structure storage where
  Id : Int
  Path : List Char
  IsDefault : Bool
deriving DecidableEq

/-- Row of table `file` (`type file struct`). -/
structure file where
  Id : Int
  Title : List Char
  Size : Int
  Ext : List Char
  StorageId : Int
deriving DecidableEq

/-- Response type declared inside `fileSingle`: the embedded `file` plus `base64_value`. -/
structure fileWithBase64 where
  file : file
  Base64Value : List Char
deriving DecidableEq

/-- Zero value of `storage` (`var s storage`). -/
def storage.zero : storage := ⟨0, [], false⟩

/-- Zero value of `file` (`var f file`). -/
def file.zero : file := ⟨0, [], 0, [], 0⟩

/-! ## Library model: `path/filepath` and `os` base names (Unix) -/

/-- Split a path at every `/` (the elements `filepath.Clean` walks over). -/
def splitSlash : List Char → List (List Char)
  | [] => [[]]
  | c :: cs =>
    if c = '/' then [] :: splitSlash cs
    else
      match splitSlash cs with
      | [] => [[c]]
      | x :: xs => (c :: x) :: xs

/-- Join path elements with single `/` separators. -/
def joinSlash : List (List Char) → List Char
  | [] => []
  | [x] => x
  | x :: y :: rest => x ++ '/' :: joinSlash (y :: rest)

/-- One iteration of the loop of `filepath.Clean` on the element `elem`, `out` being the
elements written so far: an empty element and `.` are skipped; `..` removes the last
written element when there is one that is not itself `..`, is dropped at the root, and is
kept otherwise; any other element is appended. -/
def cleanStep (rooted : Bool) (out : List (List Char)) (elem : List Char) :
    List (List Char) :=
  if elem = [] ∨ elem = ['.'] then out
  else if elem = ['.', '.'] then
    match out.getLast? with
    | some top => if top = ['.', '.'] then out ++ [elem] else out.dropLast
    | none => if rooted then out else out ++ [elem]
  else out ++ [elem]

/-- Go `filepath.Clean` on Unix. -/
def filepathClean (path : List Char) : List Char :=
  match path with
  | [] => ['.']
  | c :: _ =>
    let rooted : Bool := decide (c = '/')
    let out := joinSlash ((splitSlash path).foldl (cleanStep rooted) [])
    if rooted then '/' :: out
    else if out = [] then ['.'] else out

/-- Go `filepath.Join(a, b)`: empty elements are ignored, the rest is joined with `/` and
cleaned; the result is empty only when both elements are. -/
def filepathJoin (a b : List Char) : List Char :=
  if a ≠ [] then filepathClean (a ++ '/' :: b)
  else if b ≠ [] then filepathClean b
  else []

/-- Backward scan of `filepath.Ext`: `rev` is the part of the path not yet visited, read
from its end, and `acc` the characters already passed. -/
def extScan : List Char → List Char → List Char
  | [], _ => []
  | c :: rest, acc =>
    if c = '/' then []
    else if c = '.' then '.' :: acc
    else extScan rest (c :: acc)

/-- Go `filepath.Ext`: the suffix beginning at the final dot of the final element of the
path; empty when there is no dot. -/
def filepathExt (path : List Char) : List Char :=
  extScan path.reverse []

/-- First loop of `basename` in package `os`, on the reversed name: trailing slashes are
removed, the first character of the name is never removed. -/
def dropTrailingSlashes : List Char → List Char
  | c :: c' :: rest => if c = '/' then dropTrailingSlashes (c' :: rest) else c :: c' :: rest
  | l => l

/-- Function `basename` of package `os`, which gives `FileInfo.Name()` of an open file:
trailing slashes are removed, then the leading directory name. -/
def basename (name : List Char) : List Char :=
  match dropTrailingSlashes name.reverse with
  | [] => []
  | last :: revInit => (revInit.takeWhile (fun c => c ≠ '/')).reverse ++ [last]

/-- Path up to and including its last `/`. -/
def dirPart (path : List Char) : List Char :=
  (path.reverse.dropWhile (fun c => c ≠ '/')).reverse

/-- Go `filepath.Dir`. -/
def filepathDir (path : List Char) : List Char :=
  filepathClean (dirPart path)

/-- Go slice expression `s[:hi]`: panics (`none`) when `hi` is out of range. -/
def sliceTo (s : List Char) (hi : Int) : Option (List Char) :=
  if 0 ≤ hi ∧ hi ≤ (s.length : Int) then some (s.take hi.toNat) else none

/-! ## Library model: `encoding/base64` -/

/-- The alphabet of `base64.StdEncoding`. -/
def encodeStd : List Char :=
  "ABCDEFGHIJKLMNOPQRSTUVWXYZabcdefghijklmnopqrstuvwxyz0123456789+/".toList

/-- Lookup `enc.encode[i]`. -/
def encodeChar (i : Nat) : Char := encodeStd.getD i 'A'

/-- Go `base64.StdEncoding.EncodeToString`: three bytes give four characters; a final
group of one or two bytes is padded with `=`.  Shifts and masks of the source are written
as division and remainder by powers of two. -/
def encodeToString : List Byte → List Char
  | [] => []
  | [a] =>
    let v := a.val * 65536
    [encodeChar (v / 262144 % 64), encodeChar (v / 4096 % 64), '=', '=']
  | [a, b] =>
    let v := a.val * 65536 + b.val * 256
    [encodeChar (v / 262144 % 64), encodeChar (v / 4096 % 64), encodeChar (v / 64 % 64), '=']
  | a :: b :: c :: rest =>
    let v := a.val * 65536 + b.val * 256 + c.val
    encodeChar (v / 262144 % 64) :: encodeChar (v / 4096 % 64) :: encodeChar (v / 64 % 64)
      :: encodeChar (v % 64) :: encodeToString rest

/-- Position of a character in the alphabet of `base64.StdEncoding`. -/
def decodeChar (c : Char) : Option Nat :=
  let i := encodeStd.indexOf c
  if i < 64 then some i else none

/-- The byte with value `n mod 256`. -/
def toByte (n : Nat) : Byte := ⟨n % 256, Nat.mod_lt _ (by decide)⟩

/-- Standard base64 decoding with padding (RFC 4648, what `base64.StdEncoding.DecodeString`
accepts without line breaks): groups of four characters give three bytes, a final group
may end in `=` or `==`. -/
def decodeString : List Char → Option (List Byte)
  | [] => some []
  | [c0, c1, c2, c3] =>
    if c2 = '=' ∧ c3 = '=' then
      match decodeChar c0, decodeChar c1 with
      | some i0, some i1 =>
        if i1 % 16 = 0 then some [toByte (i0 * 4 + i1 / 16)] else none
      | _, _ => none
    else if c3 = '=' then
      match decodeChar c0, decodeChar c1, decodeChar c2 with
      | some i0, some i1, some i2 =>
        if i2 % 4 = 0 then some [toByte (i0 * 4 + i1 / 16), toByte (i1 % 16 * 16 + i2 / 4)]
        else none
      | _, _, _ => none
    else
      match decodeChar c0, decodeChar c1, decodeChar c2, decodeChar c3 with
      | some i0, some i1, some i2, some i3 =>
        some [toByte (i0 * 4 + i1 / 16), toByte (i1 % 16 * 16 + i2 / 4), toByte (i2 % 4 * 64 + i3)]
      | _, _, _, _ => none
  | c0 :: c1 :: c2 :: c3 :: rest =>
    match decodeChar c0, decodeChar c1, decodeChar c2, decodeChar c3, decodeString rest with
    | some i0, some i1, some i2, some i3, some tail =>
      some (toByte (i0 * 4 + i1 / 16) :: toByte (i1 % 16 * 16 + i2 / 4)
        :: toByte (i2 % 4 * 64 + i3) :: tail)
    | _, _, _, _, _ => none
  | _ => none

/-! ## Library model: the filesystem seen through package `os` -/

/-- What a path names: a regular file with its content, or a directory. -/
inductive Node where
  | file (data : List Byte)
  | dir
deriving DecidableEq

/-- A filesystem without links: the working directory of the process, an absolute cleaned
path, and the absolute cleaned paths that exist, each with its node.  A file has one
absolute path, and every path the handlers use names the file at the absolute path it
resolves to, so a relative and an absolute path to the same file are one entry. -/
structure FS where
  cwd : List Char
  entries : List (List Char × Node)
deriving DecidableEq

/-- Absolute path that `p` names: `p` itself, cleaned, when it starts at the root, and
`cwd/p`, cleaned, otherwise. -/
def FS.abs (fs : FS) (p : List Char) : List Char :=
  if p.head? = some '/' then filepathClean p else filepathClean (fs.cwd ++ '/' :: p)

/-- Node bound to the absolute path `q` in a list of entries. -/
def lookupPath : List (List Char × Node) → List Char → Option Node
  | [], _ => none
  | (r, n) :: rest, q => if r = q then some n else lookupPath rest q

/-- Node at the absolute path `q`, if any. -/
def FS.get (fs : FS) (q : List Char) : Option Node :=
  lookupPath fs.entries q

/-- All entries but those at the absolute path `q`. -/
def FS.del (fs : FS) (q : List Char) : FS :=
  { fs with entries := fs.entries.filter (fun e => decide (e.1 ≠ q)) }

/-- Bind the absolute path `q` to node `n`. -/
def FS.put (fs : FS) (q : List Char) (n : Node) : FS :=
  { fs with entries := (q, n) :: (FS.del fs q).entries }

/-- Go `os.Create(p)`: creates or truncates the regular file that `p` names.  Fails on the
empty path, on a directory, and when the directory that is to hold the file does not
exist. -/
def osCreate (fs : FS) (p : List Char) : Option FS :=
  if p = [] then none
  else if FS.get fs (FS.abs fs p) = some Node.dir then none
  else if FS.get fs (filepathDir (FS.abs fs p)) = some Node.dir then
    some (FS.put fs (FS.abs fs p) (Node.file []))
  else none

/-- Go `io.Copy(newFile, formFile)` on the file just opened at `p`: the whole upload is
written to it. -/
def ioCopy (fs : FS) (p : List Char) (body : List Byte) : FS :=
  FS.put fs (FS.abs fs p) (Node.file body)

/-- Go `newFile.Stat()` for the file opened at `p`: the base name of the name it was
opened with, and its size. -/
def osStat (fs : FS) (p : List Char) : Option (List Char × Int) :=
  match FS.get fs (FS.abs fs p) with
  | some (Node.file data) => some (basename p, (data.length : Int))
  | _ => none

/-- Go `os.ReadFile(p)`: the content of the regular file that `p` names; fails on the
empty path, on a directory and on a path that names nothing. -/
def osReadFile (fs : FS) (p : List Char) : Option (List Byte) :=
  if p = [] then none
  else
    match FS.get fs (FS.abs fs p) with
    | some (Node.file data) => some data
    | _ => none

/-- Go `os.Remove(p)`: removes the regular file that `p` names, or the directory that `p`
names when it is empty and is neither the root nor named by `.` or `..`; fails on the
empty path and on a path that names nothing. -/
def osRemove (fs : FS) (p : List Char) : Option FS :=
  if p = [] then none
  else
    match FS.get fs (FS.abs fs p) with
    | none => none
    | some (Node.file _) => some (FS.del fs (FS.abs fs p))
    | some Node.dir =>
      if FS.abs fs p = ['/'] ∨ basename p = ['.'] ∨ basename p = ['.', '.'] then none
      else if fs.entries.all
          (fun e => decide (e.1 = FS.abs fs p ∨ filepathDir e.1 ≠ FS.abs fs p)) then
        some (FS.del fs (FS.abs fs p))
      else none

/-! ## State and catalog -/

/-- The state the handlers act on: both catalog tables, the next value of each id
sequence, whether the schema enforces the reference `file.storage_id -> storage.id`
(the table declarations are not part of the source file), and the filesystem. -/
structure State where
  storages : List storage
  files : List file
  storageSeq : Int
  fileSeq : Int
  fkEnforced : Bool
  fs : FS
deriving DecidableEq

/-- HTTP response: status code and JSON body (`none`: nothing was written). -/
structure Response (β : Type) where
  status : Nat
  body : Option β
deriving DecidableEq

/-- Answer of `middleware.Recoverer` to a panic in a handler. -/
def Response.recovered {β : Type} : Response β := ⟨500, none⟩

/-- Query `SELECT ... FROM storage WHERE is_default = true` read with `QueryRow`: the first
matching row. -/
def queryDefaultStorage (st : State) : Option storage :=
  st.storages.find? (fun s => s.IsDefault)

/-- Query `SELECT ... FROM storage WHERE id = $1` read with `QueryRow`. -/
def queryStorage (st : State) (id : Int) : Option storage :=
  st.storages.find? (fun s => decide (s.Id = id))

/-- Query `SELECT ... FROM file WHERE id = $1` read with `QueryRow`. -/
def queryFile (st : State) (id : Int) : Option file :=
  st.files.find? (fun f => decide (f.Id = id))

/-- Statement `INSERT INTO file (...) VALUES (...) RETURNING ...`: the id is the next value
of the sequence; the insert is refused when the schema enforces the storage reference and
no storage row has that id (the sequence value is consumed all the same). -/
def insertFile (st : State) (title : List Char) (size : Int) (ext : List Char)
    (storageId : Int) : Option file × State :=
  let st1 := { st with fileSeq := st.fileSeq + 1 }
  if st.fkEnforced ∧ queryStorage st storageId = none then (none, st1)
  else
    let f : file := ⟨st.fileSeq, title, size, ext, storageId⟩
    (some f, { st1 with files := st.files ++ [f] })

/-! ## Handlers -/

/-- Handler `storageCreate` (lines 129-149) on the decoded body `path`, `is_default`. -/
def storageCreate (st : State) (path : List Char) (isDefault : Bool) :
    Response storage × State :=
  let s : storage := ⟨st.storageSeq, path, isDefault⟩
  (⟨200, some s⟩,
    { st with storages := st.storages ++ [s], storageSeq := st.storageSeq + 1 })

/-- What `fileCreate` passes to the `INSERT`: title, size, extension, storage id. -/
structure fileArgs where
  fTitle : List Char
  fSize : Int
  fExt : List Char
  storageId : Int
deriving DecidableEq

/-- Lines 201-230 of `fileCreate`: resolve the default storage, create the destination and
copy the upload into it, stat it and split its name.  `none` is the panic of
`fInfo.Name()` on the nil `FileInfo` left by a failed `os.Create` (or of an out-of-range
slice). -/
def fileCreateStore (st : State) (body : List Byte) (filename : List Char) :
    Option (State × fileArgs) :=
  let s := (queryDefaultStorage st).getD storage.zero
  let p := filepathJoin s.Path filename
  match osCreate st.fs p with
  | none => none
  | some fs1 =>
    let fs2 := ioCopy fs1 p body
    match osStat fs2 p with
    | none => none
    | some (fName, fSize) =>
      let fExt := filepathExt fName
      match sliceTo fName ((fName.length : Int) - (fExt.length : Int)) with
      | none => none
      | some fTitle => some ({ st with fs := fs2 }, ⟨fTitle, fSize, fExt, s.Id⟩)

/-- Handler `fileCreate` (lines 193-241) on the form file with content `body` and name
`filename`. -/
def fileCreate (st : State) (body : List Byte) (filename : List Char) :
    Response file × State :=
  match fileCreateStore st body filename with
  | none => (Response.recovered, st)
  | some (st1, a) =>
    let r := insertFile st1 a.fTitle a.fSize a.fExt a.storageId
    (⟨200, some (r.1.getD file.zero)⟩, r.2)

/-- Handler `fileList` (lines 243-268). -/
def fileList (st : State) : Response (List file) × State :=
  let s := (queryDefaultStorage st).getD storage.zero
  (⟨200, some (st.files.filter (fun f => decide (f.StorageId = s.Id)))⟩, st)

/-- Handler `fileSingle` (lines 270-316) on the parsed `file_id`. -/
def fileSingle (st : State) (fileId : Int) : Response fileWithBase64 × State :=
  let f := (queryFile st fileId).getD file.zero
  let s := (queryStorage st f.StorageId).getD storage.zero
  let fName := f.Title ++ f.Ext
  let fp := filepathJoin s.Path fName
  let fData := (osReadFile st.fs fp).getD []
  let enc := encodeToString fData
  (⟨200, some { file := f, Base64Value := enc }⟩, st)

/-- Handler `fileDelete` (lines 318-350) on the parsed `file_id`. -/
def fileDelete (st : State) (fileId : Int) : Response Unit × State :=
  let f := (queryFile st fileId).getD file.zero
  let s := (queryStorage st f.StorageId).getD storage.zero
  let fName := f.Title ++ f.Ext
  let fp := filepathJoin s.Path fName
  let fs1 := (osRemove st.fs fp).getD st.fs
  (⟨200, none⟩,
    { st with fs := fs1, files := st.files.filter (fun r => decide (r.Id ≠ f.Id)) })

/-! ## Predicates used by the properties -/

/-- A name `fileCreate` can store under itself: not empty, one path element, and neither
`.` nor `..`. -/
def PlainName (n : List Char) : Prop :=
  n ≠ [] ∧ '/' ∉ n ∧ n ≠ ['.'] ∧ n ≠ ['.', '.']

instance (n : List Char) : Decidable (PlainName n) := by
  unfold PlainName; infer_instance

/-- The response is the failure `NotFound` (HTTP 404). -/
def NotFound {β : Type} (r : Response β) : Prop := r.status = 404

instance {β : Type} (r : Response β) : Decidable (NotFound r) := by
  unfold NotFound; infer_instance

/-- The storage `s` is the one flagged default: it is flagged, and every flagged row is
that storage. -/
def TheDefault (st : State) (s : storage) : Prop :=
  s ∈ st.storages ∧ s.IsDefault = true ∧
    ∀ s' ∈ st.storages, s'.IsDefault = true → s'.Id = s.Id

/-- The ids are keys drawn from the sequences: storage ids are pairwise distinct, file ids
are pairwise distinct, and every id is positive and below the next value of its sequence
(sequences that start at 1). -/
def KeysOk (st : State) : Prop :=
  (st.storages.map storage.Id).Nodup ∧ (st.files.map file.Id).Nodup ∧
    (∀ s ∈ st.storages, 0 < s.Id ∧ s.Id < st.storageSeq) ∧
    (∀ f ∈ st.files, 0 < f.Id ∧ f.Id < st.fileSeq) ∧ 0 < st.storageSeq ∧ 0 < st.fileSeq

instance (st : State) : Decidable (KeysOk st) := by
  unfold KeysOk; infer_instance

/-- The listing of `fileList` is exactly the file rows of a storage flagged default: a row
is listed if and only if it is in the catalog and its `storage_id` is the id of a storage
row flagged default. -/
def ListsDefaultRows (st : State) : Prop :=
  ∃ l, (fileList st).1.body = some l ∧
    ∀ f, f ∈ l ↔ f ∈ st.files ∧ ∃ s ∈ st.storages, s.IsDefault = true ∧ f.StorageId = s.Id

/-- At most one storage row is flagged default. -/
def AtMostOneDefault (st : State) : Prop :=
  (st.storages.filter (fun s => s.IsDefault)).length ≤ 1

instance (st : State) : Decidable (AtMostOneDefault st) := by
  unfold AtMostOneDefault; infer_instance

/-- Destination of an upload named `filename` (lines 201-209 of `fileCreate`): the name
joined to the path of the first storage flagged default, or to the empty path of the zero
value when there is none. -/
def destination (st : State) (filename : List Char) : List Char :=
  filepathJoin ((queryDefaultStorage st).getD storage.zero).Path filename

/-- Path at which `fileSingle` and `fileDelete` look for the blob of the row `f`. -/
def blobPath (st : State) (f : file) : List Char :=
  filepathJoin ((queryStorage st f.StorageId).getD storage.zero).Path (f.Title ++ f.Ext)

/-- The row `f` has its blob: its storage row exists, and the path
`storage.path/title+ext` holds a regular file of exactly `size` bytes. -/
def blobOk (st : State) (f : file) : Bool :=
  match queryStorage st f.StorageId with
  | none => false
  | some s =>
    match osReadFile st.fs (filepathJoin s.Path (f.Title ++ f.Ext)) with
    | none => false
    | some data => decide ((data.length : Int) = f.Size)

/-- File/blob consistency: every file row has its blob. -/
def consistent (st : State) : Bool := st.files.all (blobOk st)

/-- Round trip of one upload: `fileCreate` answers 200 with a row, and `fileSingle` on the
id of that row answers 200 with the size of the upload and a base64 value that decodes to
the upload. -/
def RoundTrip (st : State) (body : List Byte) (filename : List Char) : Prop :=
  ∃ f, (fileCreate st body filename).1 = ⟨200, some f⟩ ∧
    ∃ r, (fileSingle (fileCreate st body filename).2 f.Id).1 = ⟨200, some r⟩ ∧
      r.file.Size = (body.length : Int) ∧ decodeString r.Base64Value = some body

/-- What the title/extension split of the name `n` must satisfy: they make up `n`, the
extension is empty without a dot in `n` and is otherwise the suffix of `n` from its last
dot, and it is not longer than `n`. -/
def SplitOf (n title ext : List Char) : Prop :=
  title ++ ext = n ∧
    ('.' ∉ n → ext = []) ∧
    ('.' ∈ n → ∃ e, '.' ∉ e ∧ ext = '.' :: e) ∧
    ext.length ≤ n.length

/-! ## Sample states -/

/-- A filesystem with the root, the working directory `/work` and the directory `/data`. -/
def fsData : FS :=
  { cwd := "/work".toList,
    entries := [("/".toList, Node.dir), ("/work".toList, Node.dir),
      ("/data".toList, Node.dir)] }

/-- The catalog after `POST /storage {path: "/data", is_default: true}` on an empty
catalog, over `fsData`. -/
def stData : State :=
  { storages := [⟨1, "/data".toList, true⟩], files := [], storageSeq := 2, fileSeq := 1,
    fkEnforced := true, fs := fsData }

/-- The state `stData` after the upload of three bytes as `report.pdf`. -/
def stReport : State :=
  { stData with
    files := [⟨1, "report".toList, 3, ".pdf".toList, 1⟩]
    fileSeq := 2
    fs := { fsData with
      entries := ("/data/report.pdf".toList, Node.file [1, 2, 3]) :: fsData.entries } }

/-- An empty catalog without storage reference enforcement, over `fsData`. -/
def stEmpty : State :=
  { storages := [], files := [], storageSeq := 1, fileSeq := 1, fkEnforced := false,
    fs := fsData }

/-- The catalog of `stData` over a filesystem where the directory `/data` is missing. -/
def stNoDir : State :=
  { stData with
    fs := { cwd := "/work".toList,
            entries := [("/".toList, Node.dir), ("/work".toList, Node.dir)] } }

/-- A catalog whose default storage has the relative path `data`, not yet present in the
working directory. -/
def stRel : State :=
  { storages := [⟨1, "data".toList, true⟩], files := [], storageSeq := 2, fileSeq := 1,
    fkEnforced := true,
    fs := { cwd := "/work".toList,
            entries := [("/".toList, Node.dir), ("/work".toList, Node.dir)] } }

/-- The state after the upload of three bytes as `a.txt` on the empty catalog `stEmpty`:
no storage is flagged default, so the row has storage id 0, which no storage row has, and
the blob lies in the working directory. -/
def stDangling : State := (fileCreate stEmpty [1, 2, 3] "a.txt".toList).2

/-- Two storages on one directory: `/work/data`, and the default storage `data`, relative
to the working directory `/work`; the blob of row 1 is `/work/data/report.pdf`. -/
def stAlias : State :=
  { storages := [⟨1, "/work/data".toList, false⟩, ⟨2, "data".toList, true⟩],
    files := [⟨1, "report".toList, 3, ".pdf".toList, 1⟩], storageSeq := 3, fileSeq := 2,
    fkEnforced := true,
    fs := { cwd := "/work".toList,
            entries := [("/".toList, Node.dir), ("/work".toList, Node.dir),
              ("/work/data".toList, Node.dir),
              ("/work/data/report.pdf".toList, Node.file [1, 2, 3])] } }

/-! ## Lemmas on the path functions -/

theorem splitSlash_ne_nil (l : List Char) : splitSlash l ≠ [] := by
  cases l with
  | nil => simp [splitSlash]
  | cons c cs =>
    unfold splitSlash
    split
    · simp
    · split <;> simp

theorem splitSlash_append (a b : List Char) :
    splitSlash (a ++ '/' :: b) = splitSlash a ++ splitSlash b := by
  induction a with
  | nil => simp [splitSlash]
  | cons c a ih =>
    by_cases hc : c = '/'
    · simp [splitSlash, hc, ih]
    · have hne := splitSlash_ne_nil a
      cases hsa : splitSlash a with
      | nil => exact absurd hsa hne
      | cons x xs => simp [splitSlash, hc, ih, hsa]

theorem splitSlash_of_not_mem (n : List Char) (h : '/' ∉ n) : splitSlash n = [n] := by
  induction n with
  | nil => rfl
  | cons c cs ih =>
    have hc : c ≠ '/' := fun e => h (by simp [e])
    have hcs : '/' ∉ cs := fun e => h (by simp [e])
    simp [splitSlash, hc, ih hcs]

theorem cleanStep_plain (rooted : Bool) (out : List (List Char)) (n : List Char)
    (h : PlainName n) : cleanStep rooted out n = out ++ [n] := by
  obtain ⟨h1, _, h3, h4⟩ := h
  simp [cleanStep, h1, h3, h4]

theorem joinSlash_concat (out : List (List Char)) (n : List Char) :
    joinSlash (out ++ [n]) = if out = [] then n else joinSlash out ++ '/' :: n := by
  induction out with
  | nil => simp [joinSlash]
  | cons x xs ih =>
    cases xs with
    | nil => simp [joinSlash]
    | cons y ys =>
      simp only [List.cons_append, joinSlash] at ih ⊢
      simp [ih]

/-- Cleaning a path that ends in `/n`, `n` a plain name, gives `n` itself or a path
that ends in `/n`. -/
theorem filepathClean_append_plain (a n : List Char) (h : PlainName n) :
    filepathClean (a ++ '/' :: n) = n ∨ ∃ x, filepathClean (a ++ '/' :: n) = x ++ '/' :: n := by
  have hsplit : splitSlash (a ++ '/' :: n) = splitSlash a ++ [n] := by
    rw [splitSlash_append, splitSlash_of_not_mem n h.2.1]
  cases hp : a ++ '/' :: n with
  | nil => simp at hp
  | cons c rest =>
    rw [← hp]
    have hform : filepathClean (a ++ '/' :: n) =
        (let rooted : Bool := decide (c = '/')
         let out := joinSlash ((splitSlash (a ++ '/' :: n)).foldl (cleanStep rooted) [])
         if rooted then '/' :: out else if out = [] then ['.'] else out) := by
      rw [hp]; rfl
    rw [hform, hsplit]
    simp only [List.foldl_append, List.foldl_cons, List.foldl_nil]
    rw [cleanStep_plain _ _ _ h, joinSlash_concat]
    by_cases hr : c = '/'
    · simp only [hr, decide_True, if_true]
      right
      split
      · exact ⟨[], rfl⟩
      · exact ⟨'/' :: joinSlash (List.foldl (cleanStep true) [] (splitSlash a)), rfl⟩
    · simp only [hr, decide_False, Bool.false_eq_true, if_false]
      by_cases hs : List.foldl (cleanStep false) [] (splitSlash a) = []
      · left; simp [hs, h.1]
      · right
        refine ⟨joinSlash (List.foldl (cleanStep false) [] (splitSlash a)), ?_⟩
        simp [hs]

theorem filepathClean_plain (n : List Char) (h : PlainName n) : filepathClean n = n := by
  have hsplit := splitSlash_of_not_mem n h.2.1
  cases hn : n with
  | nil => exact absurd hn h.1
  | cons c rest =>
    have hc : c ≠ '/' := fun e => h.2.1 (by simp [hn, e])
    have h' : PlainName (c :: rest) := hn ▸ h
    simp only [filepathClean, hc, decide_False]
    rw [← hn] at h' ⊢
    rw [hsplit]
    simp [cleanStep_plain _ _ _ h', joinSlash, h.1]

/-- The destination of a plain name is the name itself or ends in `/name`. -/
theorem filepathJoin_plain (a n : List Char) (h : PlainName n) :
    filepathJoin a n = n ∨ ∃ x, filepathJoin a n = x ++ '/' :: n := by
  unfold filepathJoin
  by_cases ha : a = []
  · left; simp [ha, h.1, filepathClean_plain n h]
  · simp only [ne_eq, ha, not_false_eq_true, if_true]
    exact filepathClean_append_plain a n h

theorem takeWhile_append_stop (p : Char → Bool) (l r : List Char) (a : Char)
    (hl : ∀ c ∈ l, p c = true) (ha : p a = false) :
    (l ++ a :: r).takeWhile p = l := by
  induction l with
  | nil => simp [List.takeWhile, ha]
  | cons c cs ih =>
    have hc : p c = true := hl c (by simp)
    have ih' := ih (fun d hd => hl d (by simp [hd]))
    simp only [List.cons_append, List.takeWhile_cons, hc, if_true, ih']

theorem takeWhile_all (p : Char → Bool) (l : List Char) (hl : ∀ c ∈ l, p c = true) :
    l.takeWhile p = l := by
  induction l with
  | nil => rfl
  | cons c cs ih =>
    have hc : p c = true := hl c (by simp)
    have ih' := ih (fun d hd => hl d (by simp [hd]))
    simp only [List.takeWhile_cons, hc, if_true, ih']

theorem dropTrailingSlashes_of_ne (c : Char) (rest : List Char) (hc : c ≠ '/') :
    dropTrailingSlashes (c :: rest) = c :: rest := by
  cases rest with
  | nil => rfl
  | cons d ds => simp [dropTrailingSlashes, hc]

/-- The base name of a path that is a plain name, or ends in `/name`, is the name. -/
theorem basename_plain (x n : List Char) (h : PlainName n) :
    basename n = n ∧ basename (x ++ '/' :: n) = n := by
  obtain ⟨hne, hns, _, _⟩ := h
  rcases List.eq_nil_or_concat n with hnil | ⟨init, last, hn⟩
  · exact absurd hnil hne
  · rw [List.concat_eq_append] at hn
    subst hn
    have hlast : last ≠ '/' := fun e => hns (by simp [e])
    have hinit : ∀ c ∈ init.reverse, (fun c => decide (c ≠ '/')) c = true := by
      intro c hc
      have : c ≠ '/' := fun e => hns (by
        rw [e] at hc
        simp at hc
        simp [hc])
      simp [this]
    constructor
    · unfold basename
      rw [List.reverse_append, List.reverse_singleton, List.singleton_append,
        dropTrailingSlashes_of_ne _ _ hlast]
      simp only
      rw [takeWhile_all _ _ hinit, List.reverse_reverse]
    · unfold basename
      have hrev : (x ++ '/' :: (init ++ [last])).reverse
          = last :: (init.reverse ++ '/' :: x.reverse) := by simp
      rw [hrev, dropTrailingSlashes_of_ne _ _ hlast]
      simp only
      rw [takeWhile_append_stop _ _ _ _ hinit (by simp), List.reverse_reverse]

/-- The file `fileCreate` opens for a plain upload name reports that name. -/
theorem basename_filepathJoin (a n : List Char) (h : PlainName n) :
    basename (filepathJoin a n) = n := by
  rcases filepathJoin_plain a n h with e | ⟨x, e⟩
  · rw [e]; exact (basename_plain [] n h).1
  · rw [e]; exact (basename_plain x n h).2

theorem filepathJoin_ne_nil (a n : List Char) (h : PlainName n) : filepathJoin a n ≠ [] := by
  rcases filepathJoin_plain a n h with e | ⟨x, e⟩
  · rw [e]; exact h.1
  · rw [e]; simp

/-! ## Lemmas on `filepath.Ext` and the title slice -/

theorem extScan_suffix (rev acc : List Char) :
    ∃ t, rev.reverse ++ acc = t ++ extScan rev acc := by
  induction rev generalizing acc with
  | nil => exact ⟨acc, by simp [extScan]⟩
  | cons c rest ih =>
    unfold extScan
    split
    · exact ⟨(c :: rest).reverse ++ acc, by simp⟩
    · split
      · rename_i hdot
        exact ⟨rest.reverse, by simp [hdot]⟩
      · obtain ⟨t, ht⟩ := ih (c :: acc)
        exact ⟨t, by simpa using ht⟩

/-- The extension is a suffix of the name. -/
theorem filepathExt_suffix (name : List Char) : ∃ t, name = t ++ filepathExt name := by
  obtain ⟨t, ht⟩ := extScan_suffix name.reverse []
  exact ⟨t, by simpa [filepathExt] using ht⟩

theorem extScan_of_not_mem (rev acc : List Char) (h : '.' ∉ rev) : extScan rev acc = [] := by
  induction rev generalizing acc with
  | nil => rfl
  | cons c rest ih =>
    have hc : c ≠ '.' := fun e => h (by simp [e])
    have hr : '.' ∉ rest := fun e => h (by simp [e])
    unfold extScan
    split
    · rfl
    · simp [hc, ih _ hr]

theorem extScan_of_mem (rev acc : List Char) (hs : '/' ∉ rev) (hd : '.' ∈ rev) :
    ∃ e t, rev = e ++ '.' :: t ∧ '.' ∉ e ∧ extScan rev acc = '.' :: (e.reverse ++ acc) := by
  induction rev generalizing acc with
  | nil => simp at hd
  | cons c rest ih =>
    have hc : c ≠ '/' := fun e => hs (by simp [e])
    have hr : '/' ∉ rest := fun e => hs (by simp [e])
    by_cases hdot : c = '.'
    · exact ⟨[], rest, by simp [hdot], by simp, by simp [extScan, hdot]⟩
    · have hd' : '.' ∈ rest := by
        rcases List.mem_cons.mp hd with e | e
        · exact absurd e.symm hdot
        · exact e
      obtain ⟨e, t, h1, h2, h3⟩ := ih (c :: acc) hr hd'
      refine ⟨c :: e, t, by simp [h1], ?_, ?_⟩
      · intro hmem
        rcases List.mem_cons.mp hmem with e' | e'
        · exact hdot e'.symm
        · exact h2 e'
      · simp [extScan, hc, hdot, h3]

/-- Without a dot in the name the extension is empty. -/
theorem filepathExt_of_not_mem (name : List Char) (h : '.' ∉ name) : filepathExt name = [] :=
  extScan_of_not_mem _ _ (by simpa using h)

/-- With a dot in a name of one path element, the extension starts at the last dot. -/
theorem filepathExt_of_mem (name : List Char) (hs : '/' ∉ name) (hd : '.' ∈ name) :
    ∃ t e, name = t ++ '.' :: e ∧ '.' ∉ e ∧ filepathExt name = '.' :: e := by
  obtain ⟨e, t, h1, h2, h3⟩ :=
    extScan_of_mem name.reverse [] (by simpa using hs) (by simpa using hd)
  refine ⟨t.reverse, e.reverse, ?_, by simpa using h2, by simpa [filepathExt] using h3⟩
  have := congrArg List.reverse h1
  simpa using this

/-- The slice that computes the title is in range, and title and extension make up the
name again. -/
theorem sliceTo_filepathExt (name : List Char) :
    ∃ t, sliceTo name ((name.length : Int) - ((filepathExt name).length : Int)) = some t
      ∧ t ++ filepathExt name = name := by
  obtain ⟨t, ht⟩ := filepathExt_suffix name
  refine ⟨t, ?_, ht.symm⟩
  have hlen : name.length = t.length + (filepathExt name).length := by
    conv_lhs => rw [ht]
    simp
  have hsub : (name.length : Int) - ((filepathExt name).length : Int) = (t.length : Int) := by
    rw [hlen]; push_cast; ring
  unfold sliceTo
  rw [hsub]
  have hle : (t.length : Int) ≤ (name.length : Int) := by
    rw [hlen]; push_cast; omega
  simp only [Int.natCast_nonneg, hle, and_self, if_true, Int.toNat_ofNat]
  conv_lhs => rw [ht]
  simp

/-! ## Lemmas on the filesystem -/

theorem lookupPath_filter_self (es : List (List Char × Node)) (q : List Char) :
    lookupPath (es.filter (fun e => decide (e.1 ≠ q))) q = none := by
  induction es with
  | nil => rfl
  | cons e rest ih =>
    obtain ⟨r, n⟩ := e
    by_cases hr : r = q
    · simpa [hr] using ih
    · simp only [ne_eq, hr, not_false_eq_true, decide_True, List.filter_cons_of_pos,
        lookupPath, if_false]
      simpa using ih

theorem lookupPath_filter_of_ne (es : List (List Char × Node)) (p q : List Char)
    (h : q ≠ p) :
    lookupPath (es.filter (fun e => decide (e.1 ≠ p))) q = lookupPath es q := by
  induction es with
  | nil => rfl
  | cons e rest ih =>
    obtain ⟨r, n⟩ := e
    by_cases hr : r = p
    · subst hr
      have hrq : r ≠ q := fun e => h e.symm
      simpa [lookupPath, hrq] using ih
    · simp only [ne_eq, hr, not_false_eq_true, decide_True, List.filter_cons_of_pos,
        lookupPath]
      split
      · rfl
      · simpa using ih

theorem FS.get_del_self (fs : FS) (p : List Char) : FS.get (FS.del fs p) p = none :=
  lookupPath_filter_self fs.entries p

theorem FS.get_del_of_ne (fs : FS) (p q : List Char) (h : q ≠ p) :
    FS.get (FS.del fs p) q = FS.get fs q :=
  lookupPath_filter_of_ne fs.entries p q h

theorem FS.get_put_self (fs : FS) (p : List Char) (n : Node) :
    FS.get (FS.put fs p n) p = some n := by
  simp [FS.put, FS.get, lookupPath]

theorem FS.get_put_of_ne (fs : FS) (p q : List Char) (n : Node) (h : q ≠ p) :
    FS.get (FS.put fs p n) q = FS.get fs q := by
  have hpq : p ≠ q := fun e => h e.symm
  simp only [FS.put, FS.get, lookupPath, hpq, if_false]
  exact FS.get_del_of_ne fs p q h

/-- Writing or removing an entry does not move the working directory, so every path keeps
naming the same absolute path. -/
theorem FS.abs_put (fs : FS) (q p : List Char) (n : Node) :
    FS.abs (FS.put fs q n) p = FS.abs fs p := rfl

theorem FS.abs_del (fs : FS) (q p : List Char) : FS.abs (FS.del fs q) p = FS.abs fs p := rfl

/-! ## Base64 round trip -/

theorem decodeChar_encodeChar : ∀ i, i < 64 → decodeChar (encodeChar i) = some i := by
  decide

theorem encodeChar_ne_pad : ∀ i, i < 64 → encodeChar i ≠ '=' := by
  decide

theorem toByte_eq (n : Nat) (a : Byte) (h : n = a.val) : toByte n = a := by
  apply Fin.ext
  simp only [toByte, h]
  exact Nat.mod_eq_of_lt a.isLt

/-- Decoding inverts `EncodeToString`. -/
theorem decodeString_encodeToString (data : List Byte) :
    decodeString (encodeToString data) = some data := by
  induction data using encodeToString.induct with
  | case1 => rfl
  | case2 a =>
    have ha := a.isLt
    simp only [encodeToString, decodeString, and_self, if_true]
    rw [decodeChar_encodeChar _ (Nat.mod_lt _ (by decide)),
      decodeChar_encodeChar _ (Nat.mod_lt _ (by decide))]
    simp only
    rw [if_pos (by omega)]
    congr 2
    exact toByte_eq _ _ (by omega)
  | case3 a b =>
    have ha := a.isLt
    have hb := b.isLt
    have h2 := encodeChar_ne_pad ((a.val * 65536 + b.val * 256) / 64 % 64)
      (Nat.mod_lt _ (by decide))
    simp only [encodeToString, decodeString, h2, false_and, if_false, if_true]
    rw [decodeChar_encodeChar _ (Nat.mod_lt _ (by decide)),
      decodeChar_encodeChar _ (Nat.mod_lt _ (by decide)),
      decodeChar_encodeChar _ (Nat.mod_lt _ (by decide))]
    simp only
    rw [if_pos (by omega)]
    congr 2
    · exact toByte_eq _ _ (by omega)
    · congr 1
      exact toByte_eq _ _ (by omega)
  | case4 a b c rest ih =>
    have ha := a.isLt
    have hb := b.isLt
    have hc := c.isLt
    have h2 := encodeChar_ne_pad ((a.val * 65536 + b.val * 256 + c.val) / 64 % 64)
      (Nat.mod_lt _ (by decide))
    have h3 := encodeChar_ne_pad ((a.val * 65536 + b.val * 256 + c.val) % 64)
      (Nat.mod_lt _ (by decide))
    have e0 := decodeChar_encodeChar ((a.val * 65536 + b.val * 256 + c.val) / 262144 % 64)
      (Nat.mod_lt _ (by decide))
    have e1 := decodeChar_encodeChar ((a.val * 65536 + b.val * 256 + c.val) / 4096 % 64)
      (Nat.mod_lt _ (by decide))
    have e2 := decodeChar_encodeChar ((a.val * 65536 + b.val * 256 + c.val) / 64 % 64)
      (Nat.mod_lt _ (by decide))
    have e3 := decodeChar_encodeChar ((a.val * 65536 + b.val * 256 + c.val) % 64)
      (Nat.mod_lt _ (by decide))
    have b0 : toByte ((a.val * 65536 + b.val * 256 + c.val) / 262144 % 64 * 4
        + (a.val * 65536 + b.val * 256 + c.val) / 4096 % 64 / 16) = a :=
      toByte_eq _ _ (by omega)
    have b1 : toByte ((a.val * 65536 + b.val * 256 + c.val) / 4096 % 64 % 16 * 16
        + (a.val * 65536 + b.val * 256 + c.val) / 64 % 64 / 4) = b :=
      toByte_eq _ _ (by omega)
    have b2 : toByte ((a.val * 65536 + b.val * 256 + c.val) / 64 % 64 % 4 * 64
        + (a.val * 65536 + b.val * 256 + c.val) % 64) = c :=
      toByte_eq _ _ (by omega)
    simp only [encodeToString]
    cases hrest : encodeToString rest with
    | nil =>
      rw [hrest] at ih
      have hnil : rest = [] := by
        simp only [decodeString] at ih
        exact (Option.some.inj ih).symm
      simp only [decodeString, h2, h3, false_and, if_false, e0, e1, e2, e3, b0, b1, b2, hnil]
    | cons x xs =>
      rw [hrest] at ih
      simp only [decodeString, e0, e1, e2, e3, ih, b0, b1, b2]

/-! ## Lemmas on the catalog queries -/

theorem queryFile_of_mem (st : State) (id : Int) (h : ∃ f ∈ st.files, f.Id = id) :
    ∃ f, queryFile st id = some f ∧ f.Id = id ∧ f ∈ st.files := by
  obtain ⟨g, hg, hgid⟩ := h
  cases hq : queryFile st id with
  | none =>
    unfold queryFile at hq
    have := List.find?_eq_none.mp hq g hg
    simp [hgid] at this
  | some f =>
    unfold queryFile at hq
    have h1 := List.find?_some hq
    have h2 := List.mem_of_find?_eq_some hq
    exact ⟨f, rfl, by simpa using h1, h2⟩

theorem queryFile_none_of_forall (st : State) (id : Int) (h : ∀ f ∈ st.files, f.Id ≠ id) :
    queryFile st id = none := by
  unfold queryFile
  apply List.find?_eq_none.mpr
  intro f hf
  simpa using h f hf

theorem queryStorage_of_default (st : State) (s : storage)
    (hs : queryDefaultStorage st = some s)
    (hkey : (st.storages.map storage.Id).Nodup) : queryStorage st s.Id = some s := by
  have hmem : s ∈ st.storages := List.mem_of_find?_eq_some hs
  cases hq : queryStorage st s.Id with
  | none =>
    unfold queryStorage at hq
    have := List.find?_eq_none.mp hq s hmem
    simp at this
  | some s' =>
    unfold queryStorage at hq
    have h1 : s'.Id = s.Id := by simpa using List.find?_some hq
    have h2 := List.mem_of_find?_eq_some hq
    rw [List.inj_on_of_nodup_map hkey h2 hmem h1]

theorem queryDefaultStorage_of_theDefault (st : State) (s : storage) (h : TheDefault st s) :
    ∃ s', queryDefaultStorage st = some s' ∧ s'.Id = s.Id := by
  obtain ⟨hmem, hflag, huniq⟩ := h
  cases hq : queryDefaultStorage st with
  | none =>
    unfold queryDefaultStorage at hq
    have := List.find?_eq_none.mp hq s hmem
    simp [hflag] at this
  | some s' =>
    unfold queryDefaultStorage at hq
    have h1 := List.find?_some hq
    have h2 := List.mem_of_find?_eq_some hq
    exact ⟨s', rfl, huniq s' h2 h1⟩

theorem filter_ne_length (l : List file) (id : Int) (hkey : (l.map file.Id).Nodup)
    (h : ∃ f ∈ l, f.Id = id) :
    (l.filter (fun r => decide (r.Id ≠ id))).length + 1 = l.length := by
  induction l with
  | nil => simp at h
  | cons x xs ih =>
    have hnd : x.Id ∉ xs.map file.Id ∧ (xs.map file.Id).Nodup := List.nodup_cons.mp hkey
    by_cases hx : x.Id = id
    · have hall : ∀ r ∈ xs, decide (r.Id ≠ id) = true := by
        intro r hr
        have : r.Id ≠ id := by
          intro e
          apply hnd.1
          rw [hx, ← e]
          exact List.mem_map_of_mem _ hr
        simp [this]
      rw [List.filter_cons_of_neg (by simp [hx]), List.filter_eq_self.mpr hall]
      rfl
    · have hex : ∃ f ∈ xs, f.Id = id := by
        obtain ⟨f, hf, hfid⟩ := h
        rcases List.mem_cons.mp hf with e | e
        · exact absurd (e ▸ hfid) hx
        · exact ⟨f, e, hfid⟩
      have := ih hnd.2 hex
      rw [List.filter_cons_of_pos (by simp [hx])]
      simp only [List.length_cons]
      omega

/-! ## Lemmas on `fileCreate` -/

theorem osCreate_ne_nil (fs fs1 : FS) (p : List Char) (h : osCreate fs p = some fs1) :
    p ≠ [] := by
  intro e
  simp [osCreate, e] at h

theorem osCreate_eq_some (fs fs1 : FS) (p : List Char) (h : osCreate fs p = some fs1) :
    fs1 = FS.put fs (FS.abs fs p) (Node.file []) := by
  unfold osCreate at h
  split at h
  · exact absurd h (by simp)
  · split at h
    · exact absurd h (by simp)
    · split at h
      · exact (Option.some.inj h).symm
      · exact absurd h (by simp)

theorem osReadFile_ioCopy (fs : FS) (p : List Char) (body : List Byte) (hp : p ≠ []) :
    osReadFile (ioCopy fs p body) p = some body := by
  simp [osReadFile, hp, ioCopy, FS.abs_put, FS.get_put_self]

/-- A successful `os.Create(p)` followed by the copy leaves every path that names another
file as it was. -/
theorem osReadFile_create_copy_of_ne (fs fs1 : FS) (p q : List Char) (body : List Byte)
    (hc : osCreate fs p = some fs1) (h : FS.abs fs q ≠ FS.abs fs p) :
    osReadFile (ioCopy fs1 p body) q = osReadFile fs q := by
  rw [osCreate_eq_some fs fs1 p hc]
  simp only [osReadFile, ioCopy, FS.abs_put]
  rw [FS.get_put_of_ne _ _ _ _ h, FS.get_put_of_ne _ _ _ _ h]

/-- When `os.Create` succeeds, lines 201-230 of `fileCreate` do not panic: the store holds
the upload at the destination, and the arguments of the `INSERT` are the split of the
base name of the destination, the length of the upload and the id of the storage used. -/
theorem fileCreateStore_of_create (st : State) (body : List Byte) (n : List Char) (fs1 : FS)
    (h : osCreate st.fs (destination st n) = some fs1) :
    ∃ t,
      sliceTo (basename (destination st n))
          (((basename (destination st n)).length : Int)
            - ((filepathExt (basename (destination st n))).length : Int))
        = some t
      ∧ t ++ filepathExt (basename (destination st n)) = basename (destination st n)
      ∧ fileCreateStore st body n
          = some ({ st with fs := ioCopy fs1 (destination st n) body },
                  ⟨t, (body.length : Int), filepathExt (basename (destination st n)),
                    ((queryDefaultStorage st).getD storage.zero).Id⟩) := by
  obtain ⟨t, ht1, ht2⟩ := sliceTo_filepathExt (basename (destination st n))
  refine ⟨t, ht1, ht2, ?_⟩
  have hstat : osStat (ioCopy fs1 (destination st n) body) (destination st n)
      = some (basename (destination st n), (body.length : Int)) := by
    simp [osStat, ioCopy, FS.abs_put, FS.get_put_self]
  unfold destination at h hstat ht1 ⊢
  simp only [fileCreateStore, h, hstat, ht1]

theorem fileCreateStore_of_not_create (st : State) (body : List Byte) (n : List Char)
    (h : osCreate st.fs (destination st n) = none) :
    fileCreateStore st body n = none := by
  unfold destination at h
  simp only [fileCreateStore, h]

theorem destination_of_default (st : State) (s : storage) (n : List Char)
    (hs : queryDefaultStorage st = some s) : destination st n = filepathJoin s.Path n := by
  simp [destination, hs]

theorem destination_of_no_default (st : State) (n : List Char)
    (h : ∀ s ∈ st.storages, s.IsDefault = false) : destination st n = filepathJoin [] n := by
  have hq : queryDefaultStorage st = none := by
    unfold queryDefaultStorage
    exact List.find?_eq_none.mpr (fun s hs => by simp [h s hs])
  simp [destination, hq, storage.zero]

/-- With a default storage whose id is a key, an upload whose destination can be created
is recorded: `fileCreate` answers 200 with the new row, appended to the catalog with the
next id, and the store holds the upload at the destination. -/
theorem fileCreate_of_default (st : State) (body : List Byte) (n : List Char) (s : storage)
    (fs1 : FS) (hs : queryDefaultStorage st = some s)
    (hkey : (st.storages.map storage.Id).Nodup)
    (hc : osCreate st.fs (filepathJoin s.Path n) = some fs1) :
    ∃ t, t ++ filepathExt (basename (filepathJoin s.Path n)) = basename (filepathJoin s.Path n)
      ∧ fileCreate st body n
        = (⟨200, some ⟨st.fileSeq, t, (body.length : Int),
              filepathExt (basename (filepathJoin s.Path n)), s.Id⟩⟩,
           { storages := st.storages,
             files := st.files ++ [⟨st.fileSeq, t, (body.length : Int),
               filepathExt (basename (filepathJoin s.Path n)), s.Id⟩],
             storageSeq := st.storageSeq, fileSeq := st.fileSeq + 1,
             fkEnforced := st.fkEnforced,
             fs := ioCopy fs1 (filepathJoin s.Path n) body }) := by
  have hdest := destination_of_default st s n hs
  obtain ⟨t, _, ht2, hstore⟩ :=
    fileCreateStore_of_create st body n fs1 (by rw [hdest]; exact hc)
  rw [hdest] at ht2 hstore
  have hqs := queryStorage_of_default st s hs hkey
  refine ⟨t, ht2, ?_⟩
  unfold queryStorage at hqs
  simp [fileCreate, hstore, insertFile, queryStorage, hqs, hs]

/-! ## Lemmas on the consistency predicate -/

theorem osRemove_eq_some (fs fs1 : FS) (p : List Char) (h : osRemove fs p = some fs1) :
    fs1 = FS.del fs (FS.abs fs p) := by
  unfold osRemove at h
  split at h
  · exact absurd h (by simp)
  · split at h
    · exact absurd h (by simp)
    · exact (Option.some.inj h).symm
    · split at h
      · exact absurd h (by simp)
      · split at h
        · exact (Option.some.inj h).symm
        · exact absurd h (by simp)

/-- A failed or successful `os.Remove(p)` leaves every path that names another file as it
was. -/
theorem osReadFile_osRemove_of_ne (fs : FS) (p q : List Char)
    (h : FS.abs fs q ≠ FS.abs fs p) :
    osReadFile ((osRemove fs p).getD fs) q = osReadFile fs q := by
  cases hr : osRemove fs p with
  | none => rfl
  | some fs1 =>
    rw [osRemove_eq_some fs fs1 p hr]
    simp [osReadFile, FS.abs_del, FS.get_del_of_ne _ _ _ h]

theorem blobOk_iff (st : State) (f : file) :
    blobOk st f = true ↔ ∃ s data, queryStorage st f.StorageId = some s
      ∧ osReadFile st.fs (filepathJoin s.Path (f.Title ++ f.Ext)) = some data
      ∧ (data.length : Int) = f.Size := by
  unfold blobOk
  cases hq : queryStorage st f.StorageId with
  | none => simp
  | some s =>
    cases hr : osReadFile st.fs (filepathJoin s.Path (f.Title ++ f.Ext)) with
    | none => simp [hr]
    | some data => simp [hr]

theorem blobPath_of_query (st : State) (f : file) (s : storage)
    (h : queryStorage st f.StorageId = some s) :
    blobPath st f = filepathJoin s.Path (f.Title ++ f.Ext) := by
  simp [blobPath, h]

theorem consistent_iff (st : State) :
    consistent st = true ↔ ∀ f ∈ st.files, blobOk st f = true := by
  simp [consistent, List.all_eq_true]

/-! ## The ids are keys -/

theorem fileCreateStore_catalog (st st1 : State) (body : List Byte) (n : List Char)
    (a : fileArgs) (h : fileCreateStore st body n = some (st1, a)) :
    st1.storages = st.storages ∧ st1.files = st.files ∧ st1.storageSeq = st.storageSeq
      ∧ st1.fileSeq = st.fileSeq ∧ st1.fkEnforced = st.fkEnforced := by
  unfold fileCreateStore at h
  simp only at h
  split at h
  · exact absurd h (by simp)
  · split at h
    · exact absurd h (by simp)
    · split at h
      · exact absurd h (by simp)
      · simp only [Option.some.injEq, Prod.mk.injEq] at h
        rw [← h.1]
        exact ⟨rfl, rfl, rfl, rfl, rfl⟩

/-- The empty catalog with both sequences at 1 has its ids as keys. -/
theorem keysOk_stEmpty : KeysOk stEmpty := by
  unfold KeysOk
  decide

/-- Handler `storageCreate` keeps the ids as keys. -/
theorem keysOk_storageCreate (st : State) (path : List Char) (isDefault : Bool)
    (h : KeysOk st) : KeysOk (storageCreate st path isDefault).2 := by
  obtain ⟨h1, h2, h3, h4, h5, h6⟩ := h
  refine ⟨?_, h2, ?_, h4, ?_, h6⟩
  · simp only [storageCreate, List.map_append, List.map_cons, List.map_nil]
    apply List.Nodup.append h1 (List.nodup_singleton _)
    intro x hx hx'
    simp only [List.mem_singleton] at hx'
    obtain ⟨s, hs, hsx⟩ := List.mem_map.mp hx
    have := (h3 s hs).2
    omega
  · intro s hs
    simp only [storageCreate, List.mem_append, List.mem_singleton] at hs ⊢
    rcases hs with hs | hs
    · have := h3 s hs
      omega
    · subst hs
      simp only
      omega
  · simp only [storageCreate]
    omega

/-- Handler `fileCreate` keeps the ids as keys. -/
theorem keysOk_fileCreate (st : State) (body : List Byte) (n : List Char)
    (h : KeysOk st) : KeysOk (fileCreate st body n).2 := by
  unfold fileCreate
  cases hst : fileCreateStore st body n with
  | none => exact h
  | some r =>
    obtain ⟨st1, a⟩ := r
    obtain ⟨e1, e2, e3, e4, _⟩ := fileCreateStore_catalog st st1 body n a hst
    obtain ⟨h1, h2, h3, h4, h5, h6⟩ := h
    simp only [insertFile]
    split
    · refine ⟨by simpa [e1] using h1, by simpa [e2] using h2, ?_, ?_, by simpa [e3] using h5,
        ?_⟩
      · intro s hs
        simp only [e1, e3] at hs ⊢
        exact h3 s hs
      · intro f hf
        simp only [e2, e4] at hf ⊢
        have := h4 f hf
        omega
      · simp only [e4]
        omega
    · refine ⟨by simpa [e1] using h1, ?_, ?_, ?_, by simpa [e3] using h5, ?_⟩
      · simp only [e2, e4, List.map_append, List.map_cons, List.map_nil]
        apply List.Nodup.append h2 (List.nodup_singleton _)
        intro x hx hx'
        simp only [List.mem_singleton] at hx'
        obtain ⟨f, hf, hfx⟩ := List.mem_map.mp hx
        have := (h4 f hf).2
        omega
      · intro s hs
        simp only [e1, e3] at hs ⊢
        exact h3 s hs
      · intro f hf
        simp only [e2, e4, List.mem_append, List.mem_singleton] at hf ⊢
        rcases hf with hf | hf
        · have := h4 f hf
          omega
        · subst hf
          simp only
          omega
      · simp only [e4]
        omega

/-- Handler `fileDelete` keeps the ids as keys. -/
theorem keysOk_fileDelete (st : State) (id : Int) (h : KeysOk st) :
    KeysOk (fileDelete st id).2 := by
  obtain ⟨h1, h2, h3, h4, h5, h6⟩ := h
  refine ⟨h1, ?_, h3, ?_, h5, h6⟩
  · simp only [fileDelete]
    exact (List.filter_sublist _).map file.Id |>.nodup h2
  · intro f hf
    simp only [fileDelete] at hf
    exact h4 f (List.mem_filter.mp hf).1

/-- With ids that are keys: the next file id is not in use, and no storage row has the id
0 of the zero value. -/
theorem keysOk_fresh (st : State) (h : KeysOk st) :
    (∀ f ∈ st.files, f.Id ≠ st.fileSeq) ∧ queryStorage st 0 = none
      ∧ (∀ f ∈ st.files, f.Id ≠ 0) := by
  obtain ⟨_, _, h3, h4, _, _⟩ := h
  refine ⟨?_, ?_, ?_⟩
  · intro f hf
    have := h4 f hf
    omega
  · unfold queryStorage
    apply List.find?_eq_none.mpr
    intro s hs
    have := h3 s hs
    simp only [decide_eq_true_eq]
    omega
  · intro f hf
    have := h4 f hf
    omega

/-- The sample state `stReport` is what the upload of three bytes as `report.pdf` makes of
`stData`. -/
theorem fileCreate_stData :
    fileCreate stData [1, 2, 3] "report.pdf".toList
      = (⟨200, some ⟨1, "report".toList, 3, ".pdf".toList, 1⟩⟩, stReport) := by
  decide

/-- A relative and an absolute path to one file are one file: in `stAlias` the blob path
of row 1 and the destination of `report.pdf` differ as strings, and the upload through
the relative default storage overwrites the blob of row 1, whose size stays 3. -/
theorem fileCreate_stAlias :
    consistent stAlias = true ∧
      blobPath stAlias ⟨1, "report".toList, 3, ".pdf".toList, 1⟩
        ≠ destination stAlias "report.pdf".toList ∧
      FS.abs stAlias.fs (blobPath stAlias ⟨1, "report".toList, 3, ".pdf".toList, 1⟩)
        = FS.abs stAlias.fs (destination stAlias "report.pdf".toList) ∧
      osReadFile (fileCreate stAlias [1, 2, 3, 4, 5] "report.pdf".toList).2.fs
        "/work/data/report.pdf".toList = some [1, 2, 3, 4, 5] ∧
      consistent (fileCreate stAlias [1, 2, 3, 4, 5] "report.pdf".toList).2 = false := by
  decide

/-! ## The properties -/

/-- C1 as stated fails: in `stNoDir` the storage `/data` is flagged default but the
directory does not exist; `os.Create` fails, the handler panics on the nil `FileInfo`,
and the upload of `a.txt` gets the answer 500 and no id. -/
theorem roundTrip_counterexample :
    (∃ s ∈ stNoDir.storages, s.IsDefault = true) ∧ '/' ∉ "a.txt".toList ∧
      fileCreate stNoDir [1, 2, 3] "a.txt".toList = (Response.recovered, stNoDir) ∧
      ¬ RoundTrip stNoDir [1, 2, 3] "a.txt".toList := by
  have h : fileCreate stNoDir [1, 2, 3] "a.txt".toList = (Response.recovered, stNoDir) := by
    decide
  refine ⟨by decide, by decide, h, ?_⟩
  rintro ⟨f, hf, _⟩
  rw [h] at hf
  simp [Response.recovered] at hf

/-- C1, amended. In every state with a storage flagged default, storage ids that are keys
and a file id sequence ahead of the stored rows, and for every upload under a plain name
whose destination `Join(storage.path, name)` can be created, `fileCreate` followed by
`fileSingle` on the returned id yields the length of the upload as size and a base64 value
that decodes to the upload; the path `fileSingle` reads for the new row is the destination
`fileCreate` wrote. -/
theorem roundTrip (st : State) (body : List Byte) (n : List Char) (s : storage)
    (hs : queryDefaultStorage st = some s)
    (hkey : (st.storages.map storage.Id).Nodup)
    (hfresh : ∀ f ∈ st.files, f.Id ≠ st.fileSeq)
    (hn : PlainName n)
    (hc : (osCreate st.fs (filepathJoin s.Path n)).isSome = true) :
    RoundTrip st body n
      ∧ ∀ f, (fileCreate st body n).1.body = some f →
          blobPath (fileCreate st body n).2 f = filepathJoin s.Path n := by
  obtain ⟨fs1, hfs1⟩ := Option.isSome_iff_exists.mp hc
  obtain ⟨t, ht, hfc⟩ := fileCreate_of_default st body n s fs1 hs hkey hfs1
  rw [basename_filepathJoin _ _ hn] at ht hfc
  have hqs := queryStorage_of_default st s hs hkey
  have hp := osCreate_ne_nil _ _ _ hfs1
  refine ⟨?_, ?_⟩
  swap
  · intro f hf
    rw [hfc] at hf ⊢
    simp only [Option.some.injEq] at hf
    subst hf
    unfold queryStorage at hqs
    simp [blobPath, queryStorage, hqs, ht]
  refine ⟨_, by rw [hfc], ?_⟩
  rw [hfc]
  have hqf : List.find? (fun f => decide (f.Id = st.fileSeq)) st.files = none :=
    List.find?_eq_none.mpr (fun f hf => by simpa using hfresh f hf)
  unfold queryStorage at hqs
  refine ⟨⟨⟨st.fileSeq, t, (body.length : Int), filepathExt n, s.Id⟩,
    encodeToString body⟩, ?_, rfl, decodeString_encodeToString body⟩
  simp [fileSingle, queryFile, queryStorage, List.find?_append, hqf, hqs, ht,
    osReadFile_ioCopy _ _ _ hp]

/-- Witness of C1, amended: the upload of three bytes as `report.pdf` into `/data`. -/
theorem roundTrip_witness :
    PlainName "report.pdf".toList ∧ RoundTrip stData [1, 2, 3] "report.pdf".toList :=
  ⟨by decide,
    (roundTrip stData [1, 2, 3] "report.pdf".toList ⟨1, "/data".toList, true⟩
      (by decide) (by decide) (by decide) (by decide) (by decide)).1⟩

/-- C2 as stated fails: in `stDangling` no storage row exists, so no file row belongs to
a storage flagged default, and `fileList` still lists row 1, whose storage id is the 0 of
the zero value. -/
theorem fileList_counterexample :
    stDangling.storages = [] ∧
      (fileList stDangling).1 = ⟨200, some [⟨1, "a".toList, 3, ".txt".toList, 0⟩]⟩ ∧
      ¬ ListsDefaultRows stDangling := by
  have hbody : (fileList stDangling).1
      = ⟨200, some [⟨1, "a".toList, 3, ".txt".toList, 0⟩]⟩ := by decide
  have hst : stDangling.storages = [] := by decide
  refine ⟨hst, hbody, ?_⟩
  rintro ⟨l, hl, hiff⟩
  rw [hbody] at hl
  simp only [Option.some.injEq] at hl
  subst hl
  obtain ⟨_, s, hs, _⟩ := (hiff ⟨1, "a".toList, 3, ".txt".toList, 0⟩).mp (by simp)
  rw [hst] at hs
  simp at hs

/-- C2, amended. In every catalog state `fileList` answers 200, changes nothing, and lists
exactly the file rows whose `storage_id` is the id of the first storage row that is
flagged default, or 0 when no row is flagged.  So when `s` is the storage flagged default
(it is flagged, and every flagged row has its id) the listing is exactly the rows of `s`: a row
is listed if and only if it is in the catalog with the id of a storage flagged default;
and in any state with the same file rows where the flag is on another storage `s2`, the
listing is the rows of `s2`. -/
theorem fileList_rows (st : State) :
    fileList st
        = (⟨200, some (st.files.filter (fun f =>
            decide (f.StorageId = ((queryDefaultStorage st).getD storage.zero).Id)))⟩, st)
      ∧ (∀ s, queryDefaultStorage st = some s →
          (fileList st).1.body
            = some (st.files.filter (fun f => decide (f.StorageId = s.Id))))
      ∧ ((∀ s ∈ st.storages, s.IsDefault = false) →
          (fileList st).1.body = some (st.files.filter (fun f => decide (f.StorageId = 0))))
      ∧ (∀ s, TheDefault st s →
          fileList st
              = (⟨200, some (st.files.filter (fun f => decide (f.StorageId = s.Id)))⟩, st)
            ∧ (∀ l, (fileList st).1.body = some l →
                ∀ f, f ∈ l ↔ f ∈ st.files ∧ f.StorageId = s.Id)
            ∧ ListsDefaultRows st
            ∧ (∀ st2 s2, st2.files = st.files → TheDefault st2 s2 →
                (fileList st2).1.body
                  = some (st.files.filter (fun f => decide (f.StorageId = s2.Id))))) := by
  have key : ∀ (t : State) (d : storage), TheDefault t d →
      fileList t = (⟨200, some (t.files.filter (fun f => decide (f.StorageId = d.Id)))⟩, t) := by
    intro t d hd
    obtain ⟨d', hq, hid⟩ := queryDefaultStorage_of_theDefault t d hd
    simp [fileList, hq, hid]
  refine ⟨rfl, ?_, ?_, ?_⟩
  · intro s hs
    simp [fileList, hs]
  · intro hnone
    have hq : queryDefaultStorage st = none := by
      unfold queryDefaultStorage
      exact List.find?_eq_none.mpr (fun s hs => by simp [hnone s hs])
    simp [fileList, hq, storage.zero]
  · intro s hs
    refine ⟨key st s hs, ?_, ?_, ?_⟩
    · intro l hl f
      rw [key st s hs] at hl
      simp only [Option.some.injEq] at hl
      subst hl
      simp
    · refine ⟨_, by rw [key st s hs], ?_⟩
      intro f
      simp only [List.mem_filter, decide_eq_true_eq]
      constructor
      · rintro ⟨hf, hid⟩
        exact ⟨hf, s, hs.1, hs.2.1, hid⟩
      · rintro ⟨hf, s', hs', hflag, hid⟩
        exact ⟨hf, by rw [hid, hs.2.2 s' hs' hflag]⟩
    · intro st2 s2 hfiles h2
      rw [key st2 s2 h2, hfiles]

/-- Witness of C2, amended, on the state holding `report.pdf` in the default storage
`/data`. -/
theorem fileList_rows_witness :
    TheDefault stReport ⟨1, "/data".toList, true⟩ ∧
      fileList stReport
        = (⟨200, some [⟨1, "report".toList, 3, ".pdf".toList, 1⟩]⟩, stReport) ∧
      ListsDefaultRows stReport := by
  have h : TheDefault stReport ⟨1, "/data".toList, true⟩ := by
    unfold TheDefault; decide
  exact ⟨h, ((fileList_rows stReport).2.2.2 _ h).1, ((fileList_rows stReport).2.2.2 _ h).2.2.1⟩

/-- C3 as stated fails: after `fileDelete 1` on the state holding `report.pdf`,
`fileSingle 1` is not `NotFound`; it answers 200 with a zero-valued body. -/
theorem fileSingle_after_fileDelete_counterexample :
    ¬ NotFound (fileSingle (fileDelete stReport 1).2 1).1 ∧
      (fileSingle (fileDelete stReport 1).2 1).1
        = ⟨200, some { file := file.zero, Base64Value := [] }⟩ := by
  decide

/-- C3, amended. For every id that has a file row, after `fileDelete id` no row with that
id is left, and `fileSingle id` does not fail: it answers 200 with the zero-valued
metadata of a row that was not found. -/
theorem fileSingle_after_fileDelete (st : State) (id : Int)
    (h : ∃ f ∈ st.files, f.Id = id) :
    queryFile (fileDelete st id).2 id = none
      ∧ (∀ f ∈ (fileDelete st id).2.files, f.Id ≠ id)
      ∧ ¬ NotFound (fileSingle (fileDelete st id).2 id).1
      ∧ ∃ r, (fileSingle (fileDelete st id).2 id).1 = ⟨200, some r⟩
          ∧ r.file = file.zero := by
  obtain ⟨f, hq, hfid, _⟩ := queryFile_of_mem st id h
  have hrows : ∀ g ∈ (fileDelete st id).2.files, g.Id ≠ id := by
    intro g hg
    simp only [fileDelete, hq, Option.getD_some, hfid] at hg
    have := (List.mem_filter.mp hg).2
    simpa using this
  have hnone := queryFile_none_of_forall _ id hrows
  refine ⟨hnone, hrows, ?_, ?_⟩
  · simp [NotFound, fileSingle]
  · refine ⟨_, rfl, ?_⟩
    simp [hnone]

/-- Witness of C3, amended, on the state holding `report.pdf`. -/
theorem fileSingle_after_fileDelete_witness :
    (∃ f ∈ stReport.files, f.Id = 1) ∧ queryFile (fileDelete stReport 1).2 1 = none :=
  have h : ∃ f ∈ stReport.files, f.Id = 1 := ⟨⟨1, "report".toList, 3, ".pdf".toList, 1⟩, by decide, rfl⟩
  ⟨h, (fileSingle_after_fileDelete stReport 1 h).1⟩

/-- C4 as stated fails: `fileDelete 5` on a catalog without file rows is not `NotFound`;
it answers 200. -/
theorem fileDelete_absent_counterexample :
    (∀ f ∈ stData.files, f.Id ≠ 5) ∧ ¬ NotFound (fileDelete stData 5).1 ∧
      (fileDelete stData 5).1 = ⟨200, none⟩ := by
  decide

/-- C4, amended. For every id without a file row, `fileDelete id` does not fail: it
answers 200 and leaves the storage rows unchanged; the row lookups leave zero values, so
when no storage row has id 0 the removal is tried on the empty path, fails, and the
filesystem is unchanged, and when no file row has id 0 the file rows are unchanged. -/
theorem fileDelete_absent (st : State) (id : Int) (h : ∀ f ∈ st.files, f.Id ≠ id) :
    (fileDelete st id).1 = ⟨200, none⟩
      ∧ ¬ NotFound (fileDelete st id).1
      ∧ (fileDelete st id).2.storages = st.storages
      ∧ (queryStorage st 0 = none → (fileDelete st id).2.fs = st.fs)
      ∧ ((∀ f ∈ st.files, f.Id ≠ 0) → (fileDelete st id).2.files = st.files) := by
  have hq := queryFile_none_of_forall st id h
  refine ⟨rfl, by simp [NotFound, fileDelete], rfl, ?_, ?_⟩
  · intro h0
    simp [fileDelete, hq, file.zero, h0, storage.zero, filepathJoin, osRemove]
  · intro h0
    simp only [fileDelete, hq, Option.getD_none, file.zero]
    apply List.filter_eq_self.mpr
    intro f hf
    simpa using h0 f hf

/-- Witness of C4, amended: `fileDelete 5` on a catalog without file rows. -/
theorem fileDelete_absent_witness :
    (∀ f ∈ stData.files, f.Id ≠ 5) ∧ (fileDelete stData 5).2.fs = stData.fs :=
  have h : ∀ f ∈ stData.files, f.Id ≠ 5 := by decide
  ⟨h, (fileDelete_absent stData 5 h).2.2.2.1 (by decide)⟩

/-- C5 as stated fails: `storageCreate` with `is_default = true` on a catalog whose only
storage is flagged default answers 200 and leaves two rows flagged default. -/
theorem storageCreate_default_counterexample :
    AtMostOneDefault stData ∧ (∃ s ∈ stData.storages, s.IsDefault = true) ∧
      (storageCreate stData "/backup".toList true).1
        = ⟨200, some ⟨2, "/backup".toList, true⟩⟩ ∧
      (storageCreate stData "/backup".toList true).2.storages
        = [⟨1, "/data".toList, true⟩, ⟨2, "/backup".toList, true⟩] ∧
      ¬ AtMostOneDefault (storageCreate stData "/backup".toList true).2 := by
  decide

/-- C5, amended. `storageCreate` never rejects and never touches an existing row: it
answers 200 and appends the new row, with the next id.  From a catalog with at most one
storage flagged default it therefore keeps that invariant exactly when the new row is not
flagged, or no existing row is. -/
theorem storageCreate_atMostOneDefault (st : State) (path : List Char) (isDefault : Bool)
    (h : AtMostOneDefault st) :
    (storageCreate st path isDefault).1 = ⟨200, some ⟨st.storageSeq, path, isDefault⟩⟩
      ∧ (storageCreate st path isDefault).2.storages
          = st.storages ++ [⟨st.storageSeq, path, isDefault⟩]
      ∧ (AtMostOneDefault (storageCreate st path isDefault).2 ↔
          (isDefault = false ∨ ∀ s ∈ st.storages, s.IsDefault = false)) := by
  refine ⟨rfl, rfl, ?_⟩
  unfold AtMostOneDefault at h ⊢
  simp only [storageCreate, List.filter_append, List.length_append]
  cases isDefault with
  | false => simpa using h
  | true =>
    simp only [List.filter_cons_of_pos, List.filter_nil, List.length_singleton,
      Bool.true_eq_false, false_or]
    constructor
    · intro hle s hs
      have hz : (st.storages.filter (fun s => s.IsDefault)).length = 0 := by omega
      have hnil := List.length_eq_zero.mp hz
      have := List.filter_eq_nil_iff.mp hnil s hs
      simpa using this
    · intro hall
      have hnil : st.storages.filter (fun s => s.IsDefault) = [] :=
        List.filter_eq_nil_iff.mpr (fun s hs => by simp [hall s hs])
      simp [hnil]

/-- Witness of C5, amended: a second, non-default storage keeps the invariant. -/
theorem storageCreate_atMostOneDefault_witness :
    AtMostOneDefault stData ∧
      AtMostOneDefault (storageCreate stData "/backup".toList false).2 :=
  have h : AtMostOneDefault stData := by decide
  ⟨h, (storageCreate_atMostOneDefault stData "/backup".toList false h).2.2.mpr (Or.inl rfl)⟩

/-- C6 as stated fails: `stReport` is consistent, and a second upload named `report.pdf`,
of five bytes, overwrites the blob of row 1, whose size stays 3. -/
theorem consistent_counterexample :
    consistent stReport = true ∧
      (fileCreate stReport [1, 2, 3, 4, 5] "report.pdf".toList).2.files
        = [⟨1, "report".toList, 3, ".pdf".toList, 1⟩,
           ⟨2, "report".toList, 5, ".pdf".toList, 1⟩] ∧
      osReadFile (fileCreate stReport [1, 2, 3, 4, 5] "report.pdf".toList).2.fs
        "/data/report.pdf".toList = some [1, 2, 3, 4, 5] ∧
      consistent (fileCreate stReport [1, 2, 3, 4, 5] "report.pdf".toList).2 = false := by
  decide

/-- C6, amended. On a filesystem without links, file/blob consistency is preserved by
`storageCreate`; by `fileCreate` under a plain name into the default storage (with storage
ids that are keys) when the destination names another file than the blob of every row
already stored; and by `fileDelete` when no row with another id has its blob in the file
the removal is tried on.  Two paths name the same file when they resolve, against the
working directory, to the same absolute path. -/
theorem consistent_preserved (st : State) (h : consistent st = true) :
    (∀ path isDefault, consistent (storageCreate st path isDefault).2 = true)
      ∧ (∀ body n s, queryDefaultStorage st = some s →
          (st.storages.map storage.Id).Nodup → PlainName n →
          (∀ f ∈ st.files,
            FS.abs st.fs (blobPath st f) ≠ FS.abs st.fs (filepathJoin s.Path n)) →
          consistent (fileCreate st body n).2 = true)
      ∧ (∀ id,
          (∀ r ∈ st.files, r.Id ≠ ((queryFile st id).getD file.zero).Id →
            FS.abs st.fs (blobPath st r)
              ≠ FS.abs st.fs (blobPath st ((queryFile st id).getD file.zero))) →
          consistent (fileDelete st id).2 = true) := by
  have hall := (consistent_iff st).mp h
  refine ⟨?_, ?_, ?_⟩
  · intro path isDefault
    apply (consistent_iff _).mpr
    intro f hf
    obtain ⟨s, data, hq, hr, hlen⟩ := (blobOk_iff st f).mp (hall f hf)
    apply (blobOk_iff _ f).mpr
    refine ⟨s, data, ?_, hr, hlen⟩
    unfold queryStorage at hq ⊢
    simp [storageCreate, List.find?_append, hq]
  · intro body n s hs hkey hn hnew
    cases hc : osCreate st.fs (filepathJoin s.Path n) with
    | none =>
      have hstore := fileCreateStore_of_not_create st body n
        (by rw [destination_of_default st s n hs]; exact hc)
      simpa [fileCreate, hstore] using h
    | some fs1 =>
      obtain ⟨t, ht, hfc⟩ := fileCreate_of_default st body n s fs1 hs hkey hc
      rw [basename_filepathJoin _ _ hn] at ht hfc
      have hqs := queryStorage_of_default st s hs hkey
      have hp := osCreate_ne_nil _ _ _ hc
      rw [hfc]
      apply (consistent_iff _).mpr
      intro f hf
      apply (blobOk_iff _ f).mpr
      simp only [List.mem_append, List.mem_singleton] at hf
      rcases hf with hf | hf
      · obtain ⟨s', data, hq, hr, hlen⟩ := (blobOk_iff st f).mp (hall f hf)
        have hne : FS.abs st.fs (filepathJoin s'.Path (f.Title ++ f.Ext))
            ≠ FS.abs st.fs (filepathJoin s.Path n) := by
          rw [← blobPath_of_query st f s' hq]
          exact hnew f hf
        refine ⟨s', data, hq, ?_, hlen⟩
        show osReadFile (ioCopy fs1 (filepathJoin s.Path n) body) _ = some data
        rw [osReadFile_create_copy_of_ne _ _ _ _ _ hc hne]
        exact hr
      · subst hf
        refine ⟨s, body, hqs, ?_, rfl⟩
        show osReadFile (ioCopy fs1 (filepathJoin s.Path n) body)
          (filepathJoin s.Path (t ++ filepathExt n)) = some body
        rw [ht]
        exact osReadFile_ioCopy _ _ _ hp
  · intro id hother
    apply (consistent_iff _).mpr
    intro r hr
    have hr' : r ∈ st.files ∧ r.Id ≠ ((queryFile st id).getD file.zero).Id := by
      simpa [fileDelete, List.mem_filter] using hr
    obtain ⟨s, data, hq, hread, hlen⟩ := (blobOk_iff st r).mp (hall r hr'.1)
    have hne := hother r hr'.1 hr'.2
    apply (blobOk_iff _ r).mpr
    refine ⟨s, data, hq, ?_, hlen⟩
    rw [blobPath_of_query st r s hq] at hne
    show osReadFile ((osRemove st.fs (blobPath st ((queryFile st id).getD file.zero))).getD
      st.fs) _ = some data
    rw [osReadFile_osRemove_of_ne _ _ _ hne]
    exact hread

/-- Witness of C6, amended: from the consistent `stReport`, a second storage, the upload
of `notes.txt` and the deletion of row 1 each give a consistent state. -/
theorem consistent_preserved_witness :
    consistent stReport = true ∧
      consistent (storageCreate stReport "/backup".toList false).2 = true ∧
      consistent (fileCreate stReport [7, 8] "notes.txt".toList).2 = true ∧
      consistent (fileDelete stReport 1).2 = true :=
  have h : consistent stReport = true := by decide
  ⟨h, (consistent_preserved stReport h).1 "/backup".toList false,
    (consistent_preserved stReport h).2.1 [7, 8] "notes.txt".toList
      ⟨1, "/data".toList, true⟩ (by decide) (by decide) (by decide) (by decide),
    (consistent_preserved stReport h).2.2 1 (by decide)⟩

/-- C7 as stated fails for the base name `.`: with the relative storage path `data`, not
yet present in the working directory, the destination `Join("data", ".")` is `data`; the
upload is stored as the file `data` and recorded with title `data` and an empty
extension, which do not make up the uploaded name. -/
theorem fileCreate_split_counterexample :
    '/' ∉ ".".toList ∧
      (fileCreate stRel [1, 2, 3] ".".toList).1
        = ⟨200, some ⟨1, "data".toList, 3, [], 1⟩⟩ ∧
      (fileCreate stRel [1, 2, 3] ".".toList).2.files = [⟨1, "data".toList, 3, [], 1⟩] ∧
      ¬ SplitOf ".".toList "data".toList [] := by
  refine ⟨by decide, by decide, by decide, ?_⟩
  intro h
  exact absurd h.1 (by decide)

/-- C7, amended. The slice that computes the title is in range for every name, and gives a
title that makes up the name with the extension.  For every upload under a plain name
(one path element other than `.` and `..`) whose destination can be created, the title and
the extension `fileCreate` passes to the `INSERT` are the split of the uploaded name:
title ++ ext is the name, ext is empty without a dot and is otherwise the suffix from the
last dot.  The row with them is recorded, and answered, when the catalog does not enforce
the storage reference or a storage row has the storage id used, which is so whenever a
storage is flagged default; when the reference is enforced and no storage row has that
id, nothing is recorded and the answer is the zero-valued row. -/
theorem fileCreate_split :
    (∀ name : List Char, ∃ t,
        sliceTo name ((name.length : Int) - ((filepathExt name).length : Int)) = some t
          ∧ t ++ filepathExt name = name ∧ (filepathExt name).length ≤ name.length)
      ∧ ∀ (st : State) (body : List Byte) (n : List Char), PlainName n →
          (osCreate st.fs (destination st n)).isSome = true →
          ∃ st1 a, fileCreateStore st body n = some (st1, a)
            ∧ SplitOf n a.fTitle a.fExt
            ∧ sliceTo n ((n.length : Int) - (a.fExt.length : Int)) = some a.fTitle
            ∧ ((st.fkEnforced = false ∨ queryStorage st a.storageId ≠ none) →
                (fileCreate st body n).1
                    = ⟨200, some ⟨st.fileSeq, a.fTitle, a.fSize, a.fExt, a.storageId⟩⟩
                  ∧ (fileCreate st body n).2.files
                    = st.files ++ [⟨st.fileSeq, a.fTitle, a.fSize, a.fExt, a.storageId⟩])
            ∧ ((∃ s ∈ st.storages, s.IsDefault = true) →
                (fileCreate st body n).1
                    = ⟨200, some ⟨st.fileSeq, a.fTitle, a.fSize, a.fExt, a.storageId⟩⟩
                  ∧ (fileCreate st body n).2.files
                    = st.files ++ [⟨st.fileSeq, a.fTitle, a.fSize, a.fExt, a.storageId⟩])
            ∧ (st.fkEnforced = true → queryStorage st a.storageId = none →
                (fileCreate st body n).1 = ⟨200, some file.zero⟩
                  ∧ (fileCreate st body n).2.files = st.files) := by
  constructor
  · intro name
    obtain ⟨t, h1, h2⟩ := sliceTo_filepathExt name
    refine ⟨t, h1, h2, ?_⟩
    have := congrArg List.length h2
    simp only [List.length_append] at this
    omega
  · intro st body n hn hc
    obtain ⟨fs1, hfs1⟩ := Option.isSome_iff_exists.mp hc
    obtain ⟨t, ht1, ht2, hstore⟩ := fileCreateStore_of_create st body n fs1 hfs1
    have hbase : basename (destination st n) = n := basename_filepathJoin _ _ hn
    rw [hbase] at ht1 ht2 hstore
    have hrec : (st.fkEnforced = false ∨
          queryStorage st ((queryDefaultStorage st).getD storage.zero).Id ≠ none) →
        (fileCreate st body n).1
            = ⟨200, some ⟨st.fileSeq, t, (body.length : Int), filepathExt n,
                ((queryDefaultStorage st).getD storage.zero).Id⟩⟩
          ∧ (fileCreate st body n).2.files
            = st.files ++ [⟨st.fileSeq, t, (body.length : Int), filepathExt n,
                ((queryDefaultStorage st).getD storage.zero).Id⟩] := by
      intro hfk
      have hins : ¬ (st.fkEnforced = true ∧
          queryStorage st ((queryDefaultStorage st).getD storage.zero).Id = none) := by
        rintro ⟨h1, h2⟩
        rcases hfk with h | h
        · simp [h] at h1
        · exact h h2
      unfold queryStorage at hins
      simp only [fileCreate, hstore, insertFile, queryStorage, if_neg hins, Option.getD_some,
        and_self]
    refine ⟨_, _, hstore, ⟨ht2, filepathExt_of_not_mem n, ?_, ?_⟩, ht1, hrec, ?_, ?_⟩
    · intro hd
      obtain ⟨t', e, _, h2, h3⟩ := filepathExt_of_mem n hn.2.1 hd
      exact ⟨e, h2, h3⟩
    · have := congrArg List.length ht2
      simp only [List.length_append] at this
      simp only
      omega
    · rintro ⟨s, hs, hflag⟩
      apply hrec
      right
      cases hq : queryDefaultStorage st with
      | none =>
        unfold queryDefaultStorage at hq
        have := List.find?_eq_none.mp hq s hs
        simp [hflag] at this
      | some d =>
        have hd : d ∈ st.storages := by
          unfold queryDefaultStorage at hq
          exact List.mem_of_find?_eq_some hq
        simp only [Option.getD_some]
        intro hnone
        unfold queryStorage at hnone
        have := List.find?_eq_none.mp hnone d hd
        simp at this
    · intro hfk hnone
      have hins : st.fkEnforced = true ∧
          queryStorage st ((queryDefaultStorage st).getD storage.zero).Id = none :=
        ⟨hfk, hnone⟩
      unfold queryStorage at hins
      simp only [fileCreate, hstore, insertFile, queryStorage, if_pos hins, Option.getD_none,
        and_self]

/-- Witness of C7, amended: the upload of `report.pdf` into `/data`. -/
theorem fileCreate_split_witness :
    PlainName "report.pdf".toList ∧
      SplitOf "report.pdf".toList "report".toList ".pdf".toList := by
  have hn : PlainName "report.pdf".toList := by decide
  obtain ⟨st1, a, hst, hsplit, _⟩ :=
    fileCreate_split.2 stData [1, 2, 3] "report.pdf".toList hn (by decide)
  have hval : (fileCreateStore stData [1, 2, 3] "report.pdf".toList).map Prod.snd
      = some ⟨"report".toList, 3, ".pdf".toList, 1⟩ := by decide
  rw [hst] at hval
  simp only [Option.map_some', Option.some.injEq] at hval
  subst hval
  exact ⟨hn, hsplit⟩

/-- C8 as stated fails: on a catalog without storage rows, the upload of `a.txt` is not
`NotFound`; it is written to `a.txt` in the working directory, recorded with storage id 0,
and answered with 200. -/
theorem fileCreate_no_default_counterexample :
    (∀ s ∈ stEmpty.storages, s.IsDefault = false) ∧
      ¬ NotFound (fileCreate stEmpty [1, 2, 3] "a.txt".toList).1 ∧
      (fileCreate stEmpty [1, 2, 3] "a.txt".toList).1
        = ⟨200, some ⟨1, "a".toList, 3, ".txt".toList, 0⟩⟩ ∧
      osReadFile (fileCreate stEmpty [1, 2, 3] "a.txt".toList).2.fs "a.txt".toList
        = some [1, 2, 3] := by
  decide

/-- C8, amended. In every state where no storage is flagged default, `fileCreate` is never
`NotFound`: it goes on with the zero-valued storage (id 0, empty path), so the destination
is the uploaded name relative to the working directory.  When that file can be created,
the answer is 200, the upload is stored there, and the row is recorded with storage id 0
unless the catalog enforces the storage reference. -/
theorem fileCreate_no_default (st : State) (body : List Byte) (n : List Char)
    (h : ∀ s ∈ st.storages, s.IsDefault = false) :
    ¬ NotFound (fileCreate st body n).1
      ∧ (∀ fs1, osCreate st.fs (filepathJoin [] n) = some fs1 →
          (fileCreate st body n).1.status = 200
            ∧ (fileCreate st body n).2.fs = ioCopy fs1 (filepathJoin [] n) body
            ∧ osReadFile (fileCreate st body n).2.fs (filepathJoin [] n) = some body
            ∧ (fileCreate st body n).2.storages = st.storages
            ∧ (st.fkEnforced = false →
                ∃ f, (fileCreate st body n).1.body = some f ∧ f.Id = st.fileSeq
                  ∧ f.Size = (body.length : Int) ∧ f.StorageId = 0
                  ∧ (fileCreate st body n).2.files = st.files ++ [f])) := by
  have hdest := destination_of_no_default st n h
  have hq : queryDefaultStorage st = none := by
    unfold queryDefaultStorage
    exact List.find?_eq_none.mpr (fun s hs => by simp [h s hs])
  have hnone : osCreate st.fs (filepathJoin [] n) = none →
      fileCreate st body n = (Response.recovered, st) := by
    intro hc
    have := fileCreateStore_of_not_create st body n (by rw [hdest]; exact hc)
    simp [fileCreate, this]
  have hsome : ∀ fs1, osCreate st.fs (filepathJoin [] n) = some fs1 →
      (fileCreate st body n).1.status = 200
        ∧ (fileCreate st body n).2.fs = ioCopy fs1 (filepathJoin [] n) body
        ∧ osReadFile (fileCreate st body n).2.fs (filepathJoin [] n) = some body
        ∧ (fileCreate st body n).2.storages = st.storages
        ∧ (st.fkEnforced = false →
            ∃ f, (fileCreate st body n).1.body = some f ∧ f.Id = st.fileSeq
              ∧ f.Size = (body.length : Int) ∧ f.StorageId = 0
              ∧ (fileCreate st body n).2.files = st.files ++ [f]) := by
    intro fs1 hc
    obtain ⟨t, _, _, hstore⟩ :=
      fileCreateStore_of_create st body n fs1 (by rw [hdest]; exact hc)
    rw [hdest] at hstore
    have hp := osCreate_ne_nil _ _ _ hc
    have hfs : (fileCreate st body n).2.fs = ioCopy fs1 (filepathJoin [] n) body := by
      simp only [fileCreate, hstore, insertFile]
      split <;> rfl
    refine ⟨by simp [fileCreate, hstore], hfs, ?_, ?_, ?_⟩
    · rw [hfs]; exact osReadFile_ioCopy _ _ _ hp
    · simp only [fileCreate, hstore, insertFile]
      split <;> rfl
    · intro hfk
      refine ⟨⟨st.fileSeq, t, (body.length : Int),
        filepathExt (basename (filepathJoin [] n)), 0⟩, ?_, rfl, rfl, rfl, ?_⟩
      · simp [fileCreate, hstore, insertFile, hfk, hq, storage.zero]
      · simp [fileCreate, hstore, insertFile, hfk, hq, storage.zero]
  refine ⟨?_, hsome⟩
  cases hc : osCreate st.fs (filepathJoin [] n) with
  | none => rw [hnone hc]; simp [NotFound, Response.recovered]
  | some fs1 => simp [NotFound, (hsome fs1 hc).1]

/-- Witness of C8, amended: the upload of `a.txt` on a catalog without storage rows. -/
theorem fileCreate_no_default_witness :
    (∀ s ∈ stEmpty.storages, s.IsDefault = false) ∧
      ¬ NotFound (fileCreate stEmpty [1, 2, 3] "a.txt".toList).1 :=
  have h : ∀ s ∈ stEmpty.storages, s.IsDefault = false := by decide
  ⟨h, (fileCreate_no_default stEmpty [1, 2, 3] "a.txt".toList h).1⟩

/-- C9 as stated fails: in `stDangling` the file row 1 has no storage row and its blob is
the file `a.txt` of the working directory; `fileDelete 1` removes that file. -/
theorem fileDelete_dangling_counterexample :
    stDangling.files = [⟨1, "a".toList, 3, ".txt".toList, 0⟩] ∧
      queryFile stDangling 1 = some ⟨1, "a".toList, 3, ".txt".toList, 0⟩ ∧
      queryStorage stDangling 0 = none ∧
      osReadFile stDangling.fs "a.txt".toList = some [1, 2, 3] ∧
      osReadFile (fileDelete stDangling 1).2.fs "a.txt".toList = none ∧
      (fileDelete stDangling 1).2.fs = fsData ∧
      (fileDelete stDangling 1).2.fs ≠ stDangling.fs := by
  decide

/-- C9, amended. When the row of `id` exists and its storage row does not, `fileDelete id`
answers 200, removes the file row and keeps the storage rows; the removal is still tried,
with the empty storage path, on `title+ext` relative to the working directory: what
`os.Remove` removes there is removed, and the filesystem is unchanged exactly when that
removal fails. -/
theorem fileDelete_dangling (st : State) (id : Int) (f : file)
    (hf : queryFile st id = some f) (hs : queryStorage st f.StorageId = none) :
    (fileDelete st id).1 = ⟨200, none⟩
      ∧ (fileDelete st id).2.files = st.files.filter (fun r => decide (r.Id ≠ id))
      ∧ (fileDelete st id).2.storages = st.storages
      ∧ (fileDelete st id).2.fs
          = (osRemove st.fs (filepathJoin [] (f.Title ++ f.Ext))).getD st.fs
      ∧ (osRemove st.fs (filepathJoin [] (f.Title ++ f.Ext)) = none →
          (fileDelete st id).2.fs = st.fs) := by
  have hid : f.Id = id := by
    unfold queryFile at hf
    simpa using List.find?_some hf
  have hfs : (fileDelete st id).2.fs
      = (osRemove st.fs (filepathJoin [] (f.Title ++ f.Ext))).getD st.fs := by
    simp [fileDelete, hf, hs, storage.zero]
  refine ⟨rfl, ?_, rfl, hfs, ?_⟩
  · simp [fileDelete, hf, hid]
  · intro hrm
    rw [hfs, hrm]
    rfl

/-- Witness of C9, amended, on `stDangling`. -/
theorem fileDelete_dangling_witness :
    queryFile stDangling 1 = some ⟨1, "a".toList, 3, ".txt".toList, 0⟩ ∧
      queryStorage stDangling 0 = none ∧
      (fileDelete stDangling 1).2.files
        = stDangling.files.filter (fun r => decide (r.Id ≠ 1)) :=
  have h1 : queryFile stDangling 1 = some ⟨1, "a".toList, 3, ".txt".toList, 0⟩ := by decide
  have h2 : queryStorage stDangling 0 = none := by decide
  ⟨h1, h2, (fileDelete_dangling stDangling 1 _ h1 h2).2.1⟩

/-- C10. For every id that has a file row, and whatever the filesystem holds,
`fileDelete id` answers 200, removes the rows with that id and no other file row (a row is
in the new catalog if and only if it was in the old one with another id), and leaves the
storage rows and both id sequences unchanged; with ids that are keys, exactly one row is
removed. -/
theorem fileDelete_rows (st : State) (id : Int) (h : ∃ f ∈ st.files, f.Id = id) :
    (fileDelete st id).1 = ⟨200, none⟩
      ∧ (fileDelete st id).2.files = st.files.filter (fun r => decide (r.Id ≠ id))
      ∧ (∀ r, r ∈ (fileDelete st id).2.files ↔ r ∈ st.files ∧ r.Id ≠ id)
      ∧ (fileDelete st id).2.storages = st.storages
      ∧ (fileDelete st id).2.storageSeq = st.storageSeq
      ∧ (fileDelete st id).2.fileSeq = st.fileSeq
      ∧ ((st.files.map file.Id).Nodup →
          (fileDelete st id).2.files.length + 1 = st.files.length) := by
  obtain ⟨f, hq, hfid, _⟩ := queryFile_of_mem st id h
  have hfiles : (fileDelete st id).2.files
      = st.files.filter (fun r => decide (r.Id ≠ id)) := by
    simp [fileDelete, hq, hfid]
  refine ⟨rfl, hfiles, ?_, rfl, rfl, rfl, ?_⟩
  · intro r
    rw [hfiles]
    simp [List.mem_filter]
  · intro hkey
    rw [hfiles]
    exact filter_ne_length st.files id hkey h

/-- Witness of C10 on the state holding `report.pdf`. -/
theorem fileDelete_rows_witness :
    (∃ f ∈ stReport.files, f.Id = 1) ∧ (fileDelete stReport 1).2.files = [] :=
  have h : ∃ f ∈ stReport.files, f.Id = 1 :=
    ⟨⟨1, "report".toList, 3, ".pdf".toList, 1⟩, by decide, rfl⟩
  ⟨h, (fileDelete_rows stReport 1 h).2.1⟩

end Fmngr
